import Mathlib

/-!
Verification development for the picsort media-organizer library
(src/lib.rs).  The Rust code is shallowly embedded: pure functions become
Lean functions on String / List Char, filesystem state becomes an explicit
FS record threaded through the copy pass, file contents consulted by the
metadata reader become an explicit ExifOutcome argument, and panics become
Except.error results.
-/

namespace Picsort

/-! ### Regex building blocks

The date-extraction regex of smartphone_file in src/lib.rs is
  (?x) (?:IMG|VID)_ (?P<y>\d{4}) (?P<m>\d{2}) (?P<d>\d{2}) _(\d{6}).(?:jpg|mp4)
Every element of the pattern has a fixed width, so matching at a given
start position is deterministic; the regex engine returns the leftmost
match.  Note the unescaped dot before the extension alternation: it is the
regex wildcard, matching any single character other than a newline.
\d is modelled as an ASCII decimal digit. -/

/-- Match a literal sequence of characters at the head of the input,
returning the remainder on success. -/
def stripLit : List Char → List Char → Option (List Char)
  | [], cs => some cs
  | _ :: _, [] => none
  | l :: ls, c :: cs => if c = l then stripLit ls cs else none

/-- Match exactly n decimal digits at the head of the input, returning the
digits and the remainder. -/
def stripDigits : Nat → List Char → Option (List Char × List Char)
  | 0, cs => some ([], cs)
  | _ + 1, [] => none
  | n + 1, c :: cs =>
    if c.isDigit then (stripDigits n cs).map (fun p => (c :: p.1, p.2)) else none

/-- Match the regex wildcard dot: any single character except a newline. -/
def stripSep : List Char → Option (Char × List Char)
  | [] => none
  | c :: cs => if c = '\n' then none else some (c, cs)

/-- Match the alternation IMG_ | VID_ (alternatives tried in order). -/
def matchPre (cs : List Char) : Option (List Char × List Char) :=
  match stripLit "IMG_".toList cs with
  | some r => some ("IMG_".toList, r)
  | none =>
    match stripLit "VID_".toList cs with
    | some r => some ("VID_".toList, r)
    | none => none

/-- Match the alternation jpg | mp4 (alternatives tried in order). -/
def matchExt (cs : List Char) : Option (List Char × List Char) :=
  match stripLit "jpg".toList cs with
  | some r => some ("jpg".toList, r)
  | none =>
    match stripLit "mp4".toList cs with
    | some r => some ("mp4".toList, r)
    | none => none

/-- Attempt the whole smartphone-filename pattern at the current position.
On success returns the captures (year, month, day) and the whole matched
substring, exactly as the regex yields cap[y], cap[m], cap[d], cap[0]. -/
def matchHere (cs : List Char) : Option (List Char × List Char × List Char × List Char) :=
  match matchPre cs with
  | none => none
  | some (pre, r0) =>
    match stripDigits 4 r0 with
    | none => none
    | some (y, r1) =>
      match stripDigits 2 r1 with
      | none => none
      | some (mo, r2) =>
        match stripDigits 2 r2 with
        | none => none
        | some (d, r3) =>
          match stripLit ['_'] r3 with
          | none => none
          | some r4 =>
            match stripDigits 6 r4 with
            | none => none
            | some (hh, r5) =>
              match stripSep r5 with
              | none => none
              | some (c, r6) =>
                match matchExt r6 with
                | none => none
                | some (ext, _) =>
                  some (y, mo, d, pre ++ y ++ mo ++ d ++ '_' :: (hh ++ c :: ext))

/-- Scan for the leftmost position at which the pattern matches. -/
def findMatch : List Char → Option (List Char × List Char × List Char × List Char)
  | [] => none
  | c :: cs =>
    match matchHere (c :: cs) with
    | some r => some r
    | none => findMatch cs

/-- Embedding of smartphone_file (src/lib.rs): search the filename for the
pattern and on a match format "{y}/{m}/{d}/{whole match}". -/
def smartphone_file (filename : String) : Option String :=
  (findMatch filename.toList).map fun r =>
    String.mk r.1 ++ "/" ++ String.mk r.2.1 ++ "/" ++ String.mk r.2.2.1 ++ "/" ++
      String.mk r.2.2.2

example : smartphone_file "IMG_20230115_102911.jpg" =
    some "2023/01/15/IMG_20230115_102911.jpg" := by decide
example : smartphone_file "VID_20221220_170102.jpg" =
    some "2022/12/20/VID_20221220_170102.jpg" := by decide
example : smartphone_file "no_match.jpg" = none := by decide
example : smartphone_file "IMG_20230115_102911!jpg" =
    some "2023/01/15/IMG_20230115_102911!jpg" := by decide
example : smartphone_file "a/IMG_20230115_102911.jpg" =
    some "2023/01/15/IMG_20230115_102911.jpg" := by decide

/-! ### Declarative description of the pattern language -/

/-- A list of exactly n decimal digits. -/
def DigitsN (n : Nat) (l : List Char) : Prop := l.length = n ∧ ∀ c ∈ l, c.isDigit

/-- The literal camera-app filename markers. -/
def GoodPre (pre : List Char) : Prop := pre = "IMG_".toList ∨ pre = "VID_".toList

/-- The literal extensions accepted by the pattern. -/
def GoodExt (e : List Char) : Prop := e = "jpg".toList ∨ e = "mp4".toList

/-- The substring w has the shape the Rust regex actually accepts:
marker, eight date digits, underscore, six time digits, then any one
non-newline character, then jpg or mp4.  The y, mo, d arguments are the
three capture groups. -/
def MatchParts (w y mo d : List Char) : Prop :=
  ∃ pre hh c e, GoodPre pre ∧ DigitsN 4 y ∧ DigitsN 2 mo ∧ DigitsN 2 d ∧
    DigitsN 6 hh ∧ c ≠ '\n' ∧ GoodExt e ∧
    w = pre ++ y ++ mo ++ d ++ '_' :: (hh ++ c :: e)

/-- Some substring of s has the shape the regex accepts. -/
def OccursWildcard (s : String) : Prop :=
  ∃ u w v y mo d, s.toList = u ++ (w ++ v) ∧ MatchParts w y mo d

/-- The substring w has the shape the specification describes, with the
separator before the extension being a literal dot. -/
def LiteralParts (w : List Char) : Prop :=
  ∃ pre y mo d hh e, GoodPre pre ∧ DigitsN 4 y ∧ DigitsN 2 mo ∧ DigitsN 2 d ∧
    DigitsN 6 hh ∧ GoodExt e ∧
    w = pre ++ y ++ mo ++ d ++ '_' :: (hh ++ '.' :: e)

/-- Some substring of s has the literal-dot shape of the specification. -/
def OccursLiteral (s : String) : Prop :=
  ∃ u w v, s.toList = u ++ (w ++ v) ∧ LiteralParts w

/-! ### Soundness and completeness of the matcher -/

theorem stripLit_sound {l cs r : List Char} (h : stripLit l cs = some r) :
    cs = l ++ r := by
  induction l generalizing cs with
  | nil => simpa [stripLit] using h
  | cons x xs ih =>
    cases cs with
    | nil => simp [stripLit] at h
    | cons c cs =>
      rw [stripLit] at h
      by_cases hc : c = x
      · simp only [hc, if_pos rfl] at h
        simp [hc, ih h]
      · simp [hc] at h

theorem stripLit_self (l r : List Char) : stripLit l (l ++ r) = some r := by
  induction l with
  | nil => rfl
  | cons x xs ih => simp [stripLit, ih]

theorem stripDigits_sound {n : Nat} {cs ds r : List Char}
    (h : stripDigits n cs = some (ds, r)) : cs = ds ++ r ∧ DigitsN n ds := by
  induction n generalizing cs ds r with
  | zero =>
    rw [stripDigits] at h
    simp only [Option.some.injEq, Prod.mk.injEq] at h
    obtain ⟨rfl, rfl⟩ := h
    exact ⟨rfl, rfl, by simp⟩
  | succ n ih =>
    cases cs with
    | nil => simp [stripDigits] at h
    | cons c cs =>
      rw [stripDigits] at h
      by_cases hc : c.isDigit
      · simp only [hc, if_pos] at h
        cases hrec : stripDigits n cs with
        | none => rw [hrec] at h; simp at h
        | some p =>
          obtain ⟨ds1, r1⟩ := p
          rw [hrec] at h
          simp only [Option.map_some', Option.some.injEq, Prod.mk.injEq] at h
          obtain ⟨rfl, rfl⟩ := h
          obtain ⟨heq, hlen, hdig⟩ := ih hrec
          refine ⟨by simp [heq], by simp [hlen], ?_⟩
          intro x hx
          rcases List.mem_cons.mp hx with h | h
          · exact h ▸ hc
          · exact hdig x h
      · simp [hc] at h

theorem stripDigits_self {n : Nat} {ds : List Char} (r : List Char)
    (hlen : ds.length = n) (hdig : ∀ c ∈ ds, c.isDigit) :
    stripDigits n (ds ++ r) = some (ds, r) := by
  induction n generalizing ds with
  | zero =>
    rw [List.length_eq_zero] at hlen
    subst hlen; rfl
  | succ n ih =>
    cases ds with
    | nil => simp at hlen
    | cons c cs =>
      have hc : c.isDigit := hdig c (by simp)
      have : stripDigits n (cs ++ r) = some (cs, r) :=
        ih (by simpa using hlen) (fun x hx => hdig x (by simp [hx]))
      simp [stripDigits, hc, this]

theorem matchPre_sound {cs pre r : List Char} (h : matchPre cs = some (pre, r)) :
    GoodPre pre ∧ cs = pre ++ r := by
  rw [matchPre] at h
  cases h1 : stripLit "IMG_".toList cs with
  | some r1 =>
    rw [h1] at h
    obtain ⟨hp, hr⟩ : "IMG_".toList = pre ∧ r1 = r := by
      simpa [Prod.ext_iff] using Option.some.inj h
    subst hp; subst hr
    exact ⟨Or.inl rfl, stripLit_sound h1⟩
  | none =>
    rw [h1] at h
    cases h2 : stripLit "VID_".toList cs with
    | some r2 =>
      rw [h2] at h
      obtain ⟨hp, hr⟩ : "VID_".toList = pre ∧ r2 = r := by
        simpa [Prod.ext_iff] using Option.some.inj h
      subst hp; subst hr
      exact ⟨Or.inr rfl, stripLit_sound h2⟩
    | none => rw [h2] at h; simp at h

theorem matchPre_self {pre : List Char} (hp : GoodPre pre) (r : List Char) :
    matchPre (pre ++ r) = some (pre, r) := by
  rcases hp with hp | hp <;> subst hp
  · rw [matchPre, stripLit_self]
  · have hfail : stripLit "IMG_".toList ("VID_".toList ++ r) = none := by
      show stripLit ('I' :: "MG_".toList) ('V' :: ("ID_".toList ++ r)) = none
      rw [stripLit]
      simp
    rw [matchPre, hfail, stripLit_self]

theorem matchExt_sound {cs e r : List Char} (h : matchExt cs = some (e, r)) :
    GoodExt e ∧ cs = e ++ r := by
  rw [matchExt] at h
  cases h1 : stripLit "jpg".toList cs with
  | some r1 =>
    rw [h1] at h
    obtain ⟨hp, hr⟩ : "jpg".toList = e ∧ r1 = r := by
      simpa [Prod.ext_iff] using Option.some.inj h
    subst hp; subst hr
    exact ⟨Or.inl rfl, stripLit_sound h1⟩
  | none =>
    rw [h1] at h
    cases h2 : stripLit "mp4".toList cs with
    | some r2 =>
      rw [h2] at h
      obtain ⟨hp, hr⟩ : "mp4".toList = e ∧ r2 = r := by
        simpa [Prod.ext_iff] using Option.some.inj h
      subst hp; subst hr
      exact ⟨Or.inr rfl, stripLit_sound h2⟩
    | none => rw [h2] at h; simp at h

theorem matchExt_self {e : List Char} (he : GoodExt e) (r : List Char) :
    matchExt (e ++ r) = some (e, r) := by
  rcases he with he | he <;> subst he
  · rw [matchExt, stripLit_self]
  · have hfail : stripLit "jpg".toList ("mp4".toList ++ r) = none := by
      show stripLit ('j' :: "pg".toList) ('m' :: ("p4".toList ++ r)) = none
      rw [stripLit]
      simp
    rw [matchExt, hfail, stripLit_self]

theorem stripSep_sound {cs : List Char} {c : Char} {r : List Char}
    (h : stripSep cs = some (c, r)) : cs = c :: r ∧ c ≠ '\n' := by
  cases cs with
  | nil => simp [stripSep] at h
  | cons a l =>
    rw [stripSep] at h
    by_cases ha : a = '\n'
    · simp [ha] at h
    · simp only [if_neg ha, Option.some.injEq, Prod.mk.injEq] at h
      obtain ⟨rfl, rfl⟩ := h
      exact ⟨rfl, ha⟩

theorem matchHere_sound {cs y mo d w : List Char}
    (h : matchHere cs = some (y, mo, d, w)) :
    ∃ v, cs = w ++ v ∧ MatchParts w y mo d := by
  rw [matchHere] at h
  cases hp : matchPre cs with
  | none => simp only [hp] at h; exact absurd h (by simp)
  | some pr =>
    obtain ⟨pre, r0⟩ := pr
    simp only [hp] at h
    cases h4 : stripDigits 4 r0 with
    | none => simp only [h4] at h; exact absurd h (by simp)
    | some p4 =>
      obtain ⟨y1, r1⟩ := p4
      simp only [h4] at h
      cases h2 : stripDigits 2 r1 with
      | none => simp only [h2] at h; exact absurd h (by simp)
      | some p2 =>
        obtain ⟨mo1, r2⟩ := p2
        simp only [h2] at h
        cases h3 : stripDigits 2 r2 with
        | none => simp only [h3] at h; exact absurd h (by simp)
        | some p3 =>
          obtain ⟨d1, r3⟩ := p3
          simp only [h3] at h
          cases hu : stripLit ['_'] r3 with
          | none => simp only [hu] at h; exact absurd h (by simp)
          | some r4 =>
            simp only [hu] at h
            cases h6 : stripDigits 6 r4 with
            | none => simp only [h6] at h; exact absurd h (by simp)
            | some p6 =>
              obtain ⟨hh, r5⟩ := p6
              simp only [h6] at h
              cases hsp : stripSep r5 with
              | none => simp only [hsp] at h; exact absurd h (by simp)
              | some pc =>
                obtain ⟨c, r6⟩ := pc
                simp only [hsp] at h
                cases he : matchExt r6 with
                | none => simp only [he] at h; exact absurd h (by simp)
                | some pe =>
                  obtain ⟨ext, v⟩ := pe
                  simp only [he] at h
                  simp only [Option.some.injEq, Prod.mk.injEq] at h
                  obtain ⟨rfl, rfl, rfl, rfl⟩ := h
                  obtain ⟨hpre, hcs⟩ := matchPre_sound hp
                  obtain ⟨h40, hy⟩ := stripDigits_sound h4
                  obtain ⟨h20, hmo⟩ := stripDigits_sound h2
                  obtain ⟨h30, hd⟩ := stripDigits_sound h3
                  have hr3 : r3 = '_' :: r4 := by simpa using stripLit_sound hu
                  obtain ⟨h60, hhh⟩ := stripDigits_sound h6
                  obtain ⟨hr5, hcn⟩ := stripSep_sound hsp
                  obtain ⟨hext, h70⟩ := matchExt_sound he
                  refine ⟨v, ?_, pre, hh, c, ext, hpre, hy, hmo, hd, hhh, hcn, hext, rfl⟩
                  simp [hcs, h40, h20, h30, hr3, h60, hr5, h70, List.append_assoc]

theorem matchHere_isSome {w y mo d : List Char} (hw : MatchParts w y mo d)
    (v : List Char) : (matchHere (w ++ v)).isSome := by
  obtain ⟨pre, hh, c, e, hpre, hy, hmo, hd, hhh, hc, hext, rfl⟩ := hw
  have hassoc : (pre ++ y ++ mo ++ d ++ '_' :: (hh ++ c :: e)) ++ v =
      pre ++ (y ++ (mo ++ (d ++ '_' :: (hh ++ (c :: (e ++ v)))))) := by
    simp [List.append_assoc]
  have e0 := matchPre_self hpre (y ++ (mo ++ (d ++ '_' :: (hh ++ (c :: (e ++ v))))))
  have e1 : stripDigits 4 (y ++ (mo ++ (d ++ '_' :: (hh ++ (c :: (e ++ v)))))) =
      some (y, mo ++ (d ++ '_' :: (hh ++ (c :: (e ++ v))))) :=
    stripDigits_self _ hy.1 hy.2
  have e2 : stripDigits 2 (mo ++ (d ++ '_' :: (hh ++ (c :: (e ++ v))))) =
      some (mo, d ++ '_' :: (hh ++ (c :: (e ++ v)))) :=
    stripDigits_self _ hmo.1 hmo.2
  have e3 : stripDigits 2 (d ++ '_' :: (hh ++ (c :: (e ++ v)))) =
      some (d, '_' :: (hh ++ (c :: (e ++ v)))) :=
    stripDigits_self _ hd.1 hd.2
  have e4 : stripLit ['_'] ('_' :: (hh ++ (c :: (e ++ v)))) =
      some (hh ++ (c :: (e ++ v))) := by simp [stripLit]
  have e5 : stripDigits 6 (hh ++ (c :: (e ++ v))) = some (hh, c :: (e ++ v)) :=
    stripDigits_self _ hhh.1 hhh.2
  have e6 : stripSep (c :: (e ++ v)) = some (c, e ++ v) := by simp [stripSep, hc]
  have e7 := matchExt_self hext v
  rw [hassoc]
  simp [matchHere, e0, e1, e2, e3, e4, e5, e6, e7]

theorem findMatch_sound {cs y mo d w : List Char}
    (h : findMatch cs = some (y, mo, d, w)) :
    ∃ u v, cs = u ++ (w ++ v) ∧ MatchParts w y mo d := by
  induction cs with
  | nil => simp [findMatch] at h
  | cons c cs ih =>
    rw [findMatch] at h
    cases hm : matchHere (c :: cs) with
    | some r =>
      rw [hm] at h
      obtain rfl := Option.some.inj h
      obtain ⟨v, hcs, hparts⟩ := matchHere_sound hm
      exact ⟨[], v, by simpa using hcs, hparts⟩
    | none =>
      rw [hm] at h
      obtain ⟨u, v, hcs, hparts⟩ := ih h
      exact ⟨c :: u, v, by simp [hcs], hparts⟩

theorem matchParts_ne_nil {w y mo d : List Char} (hw : MatchParts w y mo d)
    (v : List Char) : w ++ v ≠ [] := by
  obtain ⟨pre, hh, c, e, hpre, _, _, _, _, _, _, rfl⟩ := hw
  rcases hpre with h | h <;> subst h <;> simp

theorem findMatch_isSome {w y mo d : List Char} (hw : MatchParts w y mo d)
    (u v : List Char) : (findMatch (u ++ (w ++ v))).isSome := by
  induction u with
  | nil =>
    simp only [List.nil_append]
    have hs := matchHere_isSome hw v
    cases hwv : w ++ v with
    | nil => exact absurd hwv (matchParts_ne_nil hw v)
    | cons a l =>
      rw [hwv] at hs
      rw [findMatch]
      cases hm : matchHere (a :: l) with
      | some r => simp
      | none => rw [hm] at hs; simp at hs
  | cons c u ih =>
    simp only [List.cons_append]
    rw [findMatch]
    cases hm : matchHere (c :: (u ++ (w ++ v))) with
    | some r => simp
    | none => simpa using ih

/-! ### The literal-dot variant claimed by the specification -/

/-- Boolean test for a literal-dot occurrence of the pattern starting at
the current position. -/
def matchDotHere (cs : List Char) : Bool :=
  match matchPre cs with
  | none => false
  | some (_, r0) =>
    match stripDigits 4 r0 with
    | none => false
    | some (_, r1) =>
      match stripDigits 2 r1 with
      | none => false
      | some (_, r2) =>
        match stripDigits 2 r2 with
        | none => false
        | some (_, r3) =>
          match stripLit ['_'] r3 with
          | none => false
          | some r4 =>
            match stripDigits 6 r4 with
            | none => false
            | some (_, r5) =>
              match stripLit ['.'] r5 with
              | none => false
              | some r6 => (matchExt r6).isSome

/-- Boolean scan for a literal-dot occurrence anywhere in the input. -/
def hasLiteral : List Char → Bool
  | [] => false
  | c :: cs => matchDotHere (c :: cs) || hasLiteral cs

theorem literalParts_ne_nil {w : List Char} (hw : LiteralParts w)
    (v : List Char) : w ++ v ≠ [] := by
  obtain ⟨pre, y, mo, d, hh, e, hpre, _, _, _, _, _, rfl⟩ := hw
  rcases hpre with h | h <;> subst h <;> simp

theorem matchDotHere_self {w : List Char} (hw : LiteralParts w)
    (v : List Char) : matchDotHere (w ++ v) = true := by
  obtain ⟨pre, y, mo, d, hh, e, hpre, hy, hmo, hd, hhh, hext, rfl⟩ := hw
  have hassoc : (pre ++ y ++ mo ++ d ++ '_' :: (hh ++ '.' :: e)) ++ v =
      pre ++ (y ++ (mo ++ (d ++ '_' :: (hh ++ ('.' :: (e ++ v)))))) := by
    simp [List.append_assoc]
  have e0 := matchPre_self hpre (y ++ (mo ++ (d ++ '_' :: (hh ++ ('.' :: (e ++ v))))))
  have e1 : stripDigits 4 (y ++ (mo ++ (d ++ '_' :: (hh ++ ('.' :: (e ++ v)))))) =
      some (y, mo ++ (d ++ '_' :: (hh ++ ('.' :: (e ++ v))))) :=
    stripDigits_self _ hy.1 hy.2
  have e2 : stripDigits 2 (mo ++ (d ++ '_' :: (hh ++ ('.' :: (e ++ v))))) =
      some (mo, d ++ '_' :: (hh ++ ('.' :: (e ++ v)))) :=
    stripDigits_self _ hmo.1 hmo.2
  have e3 : stripDigits 2 (d ++ '_' :: (hh ++ ('.' :: (e ++ v)))) =
      some (d, '_' :: (hh ++ ('.' :: (e ++ v)))) :=
    stripDigits_self _ hd.1 hd.2
  have e4 : stripLit ['_'] ('_' :: (hh ++ ('.' :: (e ++ v)))) =
      some (hh ++ ('.' :: (e ++ v))) := by simp [stripLit]
  have e5 : stripDigits 6 (hh ++ ('.' :: (e ++ v))) = some (hh, '.' :: (e ++ v)) :=
    stripDigits_self _ hhh.1 hhh.2
  have e6 : stripLit ['.'] ('.' :: (e ++ v)) = some (e ++ v) := by simp [stripLit]
  have e7 := matchExt_self hext v
  rw [hassoc]
  simp [matchDotHere, e0, e1, e2, e3, e4, e5, e6, e7]

theorem hasLiteral_of_occurs {s : String} (h : OccursLiteral s) :
    hasLiteral s.toList = true := by
  obtain ⟨u, w, v, hs, hw⟩ := h
  rw [hs]
  clear hs
  induction u with
  | nil =>
    simp only [List.nil_append]
    have hd := matchDotHere_self hw v
    cases hwv : w ++ v with
    | nil => exact absurd hwv (literalParts_ne_nil hw v)
    | cons a l =>
      rw [hwv] at hd
      rw [hasLiteral, hd]
      simp
  | cons c u ih =>
    simp only [List.cons_append]
    rw [hasLiteral]
    simp [ih]

/-- C2 (counterexample): the claim says smartphone_file succeeds only when
the input contains a substring of the exact literal form
(IMG|VID)_YYYYMMDD_HHMMSS.(jpg|mp4), with the dot separator matched
literally.  The input IMG_20230115_102911!jpg contains no such substring,
yet smartphone_file accepts it, because the dot in the Rust regex is an
unescaped wildcard. -/
theorem smartphone_file_dot_counterexample :
    smartphone_file "IMG_20230115_102911!jpg" =
      some "2023/01/15/IMG_20230115_102911!jpg" ∧
    ¬ OccursLiteral "IMG_20230115_102911!jpg" := by
  refine ⟨by decide, fun h => ?_⟩
  have h1 := hasLiteral_of_occurs h
  have h2 : hasLiteral "IMG_20230115_102911!jpg".toList = false := by decide
  rw [h2] at h1
  exact Bool.noConfusion h1

/-- C2 (amended): smartphone_file returns a result if and only if the
input contains a substring of the form (IMG|VID)_YYYYMMDD_HHMMSS, then any
single character other than a newline, then jpg or mp4 (the dot in the
pattern is an unescaped regex wildcard); the IMG_/VID_ markers and the
extension letters are matched literally and case-sensitively.  On success
the result is {YYYY}/{MM}/{DD}/{wholeMatch}, with exactly the digits
present in the matched substring and the whole matched substring as the
final component. -/
theorem smartphone_file_characterization (s : String) :
    ((smartphone_file s).isSome ↔ OccursWildcard s) ∧
    (∀ r, smartphone_file s = some r →
      ∃ u w v y mo d, s.toList = u ++ (w ++ v) ∧ MatchParts w y mo d ∧
        r = String.mk y ++ "/" ++ String.mk mo ++ "/" ++ String.mk d ++ "/" ++
          String.mk w) := by
  constructor
  · constructor
    · intro h
      cases hfm : findMatch s.toList with
      | none => rw [smartphone_file, hfm] at h; simp at h
      | some r =>
        obtain ⟨y, mo, d, w⟩ := r
        obtain ⟨u, v, hcs, hparts⟩ := findMatch_sound hfm
        exact ⟨u, w, v, y, mo, d, hcs, hparts⟩
    · rintro ⟨u, w, v, y, mo, d, hs, hparts⟩
      rw [smartphone_file]
      have hfind := findMatch_isSome hparts u v
      rw [← hs] at hfind
      cases hfm : findMatch s.toList with
      | none => rw [hfm] at hfind; simp at hfind
      | some r => simp
  · intro r h
    cases hfm : findMatch s.toList with
    | none => rw [smartphone_file, hfm] at h; simp at h
    | some t =>
      obtain ⟨y, mo, d, w⟩ := t
      rw [smartphone_file, hfm] at h
      simp only [Option.map_some', Option.some.injEq] at h
      obtain ⟨u, v, hcs, hparts⟩ := findMatch_sound hfm
      exact ⟨u, w, v, y, mo, d, hcs, hparts, h.symm⟩

/-- Witness for the amended C2 theorem at a concrete input. -/
theorem smartphone_file_characterization_w :
    OccursWildcard "IMG_20230115_102911.jpg" :=
  (smartphone_file_characterization "IMG_20230115_102911.jpg").1.mp (by decide)

/-! ### Paths and the media-file classifier

Rust Path methods are modelled on the character list of the path string.
OS strings are not always valid UTF-8; an extension as returned by
Path::extension is therefore an Option OsStr, where an OsStr either
decodes to a String or does not. -/

/-- Split a list at the last occurrence of sep: returns the part before
it and the part after it. -/
def afterLast (sep : Char) : List Char → Option (List Char × List Char)
  | [] => none
  | c :: cs =>
    match afterLast sep cs with
    | some p => some (c :: p.1, p.2)
    | none => if c = sep then some ([], cs) else none

theorem afterLast_sound {sep : Char} {cs b a : List Char}
    (h : afterLast sep cs = some (b, a)) : cs = b ++ sep :: a := by
  induction cs generalizing b a with
  | nil => simp [afterLast] at h
  | cons c cs ih =>
    rw [afterLast] at h
    cases hr : afterLast sep cs with
    | some p =>
      rw [hr] at h
      simp only [Option.some.injEq, Prod.mk.injEq] at h
      obtain ⟨rfl, rfl⟩ := h
      simp [ih hr]
    | none =>
      rw [hr] at h
      by_cases hc : c = sep
      · simp only [hc, if_pos rfl, Option.some.injEq, Prod.mk.injEq] at h
        obtain ⟨rfl, rfl⟩ := h
        simp [hc]
      · simp [hc] at h

/-- Embedding of Path::file_name: the component after the last slash. -/
def fileNameOf (cs : List Char) : List Char :=
  match afterLast '/' cs with
  | some p => p.2
  | none => cs

/-- Embedding of Path::extension on a UTF-8 path string, applied to a
file-name component: the part after its last dot, none when the name
holds no dot or starts with its only dot. -/
def extOf (n : List Char) : Option String :=
  if n = ['.'] ∨ n = ['.', '.'] then none
  else
    match afterLast '.' n with
    | none => none
    | some q => if q.1 = [] then none else some (String.mk q.2)

/-- Embedding of Path::extension on a UTF-8 path string. -/
def strExtension (p : String) : Option String := extOf (fileNameOf p.toList)

/-- An operating-system string: either valid UTF-8 or undecodable bytes. -/
inductive OsStr where
  | utf8 (s : String)
  | invalidBytes (bytes : List Nat)

/-- Embedding of OsStr::to_str: succeeds exactly on valid UTF-8. -/
def OsStr.toStr : OsStr → Option String
  | .utf8 s => some s
  | .invalidBytes _ => none

/-- Lowercasing of a string, character by character (ASCII). -/
def lowerStr (s : String) : String := String.mk (s.toList.map Char.toLower)

/-- Embedding of is_media_file (src/lib.rs).  The function only consults
the path's extension, so the embedding takes that extension as the OS
reports it.  The unwrap on to_str is a panic, modelled as an error. -/
def is_media_file (ext : Option OsStr) : Except String Bool :=
  match ext with
  | none => .ok false
  | some o =>
    match o.toStr with
    | none => .error "panicked: called unwrap on a None value"
    | some s =>
      .ok (decide (lowerStr s = "jpg" ∨ lowerStr s = "jpeg" ∨
        lowerStr s = "mp4" ∨ lowerStr s = "png"))

/-- The extension of a UTF-8 path string, as passed to is_media_file. -/
def pathExt (p : String) : Option OsStr := (strExtension p).map OsStr.utf8

example : is_media_file (pathExt "test.JPG") = .ok true := rfl
example : is_media_file (pathExt "test.jpeg") = .ok true := rfl
example : is_media_file (pathExt "test.txt") = .ok false := rfl
example : is_media_file (pathExt "test") = .ok false := rfl
example : is_media_file (pathExt ".gitignore") = .ok false := rfl

/-- C6 (counterexample): on a path whose extension is not valid UTF-8,
is_media_file panics (unwrap on a None to_str) instead of returning. -/
theorem is_media_file_panics_on_invalid :
    is_media_file (some (.invalidBytes [255])) =
      .error "panicked: called unwrap on a None value" := rfl

/-- C6 (amended): is_media_file is a pure function that never fails on
any path whose extension is absent or decodes as UTF-8; on a path whose
extension is not valid UTF-8 it panics. -/
theorem is_media_file_total_on_utf8 (ext : Option String) :
    ∃ b, is_media_file (ext.map OsStr.utf8) = .ok b := by
  cases ext with
  | none => exact ⟨false, rfl⟩
  | some s => exact ⟨_, rfl⟩

/-- Witness for the amended C6 theorem at a concrete extension. -/
theorem is_media_file_total_on_utf8_w :
    ∃ b, is_media_file ((some "txt").map OsStr.utf8) = .ok b :=
  is_media_file_total_on_utf8 (some "txt")

/-- C7: is_media_file returns true exactly when the path has an extension
that decodes and whose lowercase form is one of jpg, jpeg, mp4, png; for
a path with no extension it returns false. -/
theorem is_media_file_iff :
    (∀ ext : Option OsStr, is_media_file ext = .ok true ↔
      ∃ o s, ext = some o ∧ o.toStr = some s ∧
        (lowerStr s = "jpg" ∨ lowerStr s = "jpeg" ∨
          lowerStr s = "mp4" ∨ lowerStr s = "png")) ∧
    is_media_file none = .ok false := by
  refine ⟨fun ext => ⟨?_, ?_⟩, rfl⟩
  · intro h
    cases ext with
    | none => simp [is_media_file] at h
    | some o =>
      cases o with
      | utf8 s =>
        refine ⟨.utf8 s, s, rfl, rfl, ?_⟩
        simpa [is_media_file, OsStr.toStr] using h
      | invalidBytes b => simp [is_media_file, OsStr.toStr] at h
  · rintro ⟨o, s, rfl, hs, hset⟩
    cases o with
    | utf8 t =>
      obtain rfl : t = s := by simpa [OsStr.toStr] using hs
      simp [is_media_file, OsStr.toStr, hset]
    | invalidBytes b => simp [OsStr.toStr] at hs

/-- Witness for C7 at concrete inputs: an uppercase media extension is
accepted. -/
theorem is_media_file_iff_w :
    is_media_file (some (.utf8 "JPG")) = .ok true :=
  (is_media_file_iff.1 (some (.utf8 "JPG"))).mpr
    ⟨.utf8 "JPG", "JPG", rfl, rfl, Or.inl (by decide)⟩

/-! ### The metadata reader read_jpg_exif

The reader first requires the lowercased filename to end in .jpg or .png;
only then does it open the file.  What the file yields is modelled as an
explicit ExifOutcome argument: opening can fail, the container can fail to
parse (both panic via unwrap in the source), the date field can be absent,
or present with a display text.  The display text is searched with the
regex (?P<y>\d{4})-(?P<m>\d{2})-(?P<d>\d{2})\s+(?:\d|:){8}. -/

/-- Lowercasing of a character list (ASCII). -/
def lowerList (cs : List Char) : List Char := cs.map Char.toLower

/-- Embedding of str::ends_with. -/
def ends_with (cs suf : List Char) : Bool :=
  suf == cs.drop (cs.length - suf.length)

/-- What the filesystem and the exif parser yield for one file. -/
inductive ExifOutcome where
  | openFail
  | parseFail
  | noDate
  | date (text : String)

/-- Eight characters each a digit or a colon. -/
def timeLike (cs : List Char) : Bool :=
  (cs.take 8).length == 8 && (cs.take 8).all fun c => c.isDigit || c = ':'

/-- Skip leading whitespace. -/
def skipWs : List Char → List Char
  | [] => []
  | c :: cs => if c.isWhitespace then skipWs cs else c :: cs

/-- Match one-or-more whitespace followed by eight digit-or-colon
characters.  Digits and colons are never whitespace, so consuming the
maximal whitespace run is equivalent to the regex backtracking search. -/
def wsTime : List Char → Bool
  | [] => false
  | c :: cs => c.isWhitespace && timeLike (skipWs cs)

/-- Attempt the capture-date pattern at the current position. -/
def matchDateHere (cs : List Char) : Option (List Char × List Char × List Char) :=
  match stripDigits 4 cs with
  | none => none
  | some (y, r1) =>
    match stripLit ['-'] r1 with
    | none => none
    | some r2 =>
      match stripDigits 2 r2 with
      | none => none
      | some (mo, r3) =>
        match stripLit ['-'] r3 with
        | none => none
        | some r4 =>
          match stripDigits 2 r4 with
          | none => none
          | some (d, r5) => if wsTime r5 then some (y, mo, d) else none

/-- Scan for the leftmost position at which the date pattern matches. -/
def findDate : List Char → Option (List Char × List Char × List Char)
  | [] => none
  | c :: cs =>
    match matchDateHere (c :: cs) with
    | some r => some r
    | none => findDate cs

/-- Embedding of read_jpg_exif (src/lib.rs).  The early return on the
extension gate happens before the file is opened, so a gate miss yields
ok none whatever the ExifOutcome says. -/
def read_jpg_exif (ex : ExifOutcome) (filename : String) : Except String (Option String) :=
  if !(ends_with (lowerList filename.toList) ".jpg".toList) &&
      !(ends_with (lowerList filename.toList) ".png".toList) then
    .ok none
  else
    match ex with
    | .openFail => .error "panicked: Could not open file"
    | .parseFail => .error "panicked: metadata container unreadable"
    | .noDate => .ok (some "no exif data")
    | .date text =>
      .ok ((findDate text.toList).map fun r =>
        String.mk r.1 ++ "/" ++ String.mk r.2.1 ++ "/" ++ String.mk r.2.2 ++ "/" ++
          String.mk (fileNameOf filename.toList))

example : read_jpg_exif (.date "2022-12-17 10:00:00") "tests/test_image.JPG" =
    .ok (some "2022/12/17/test_image.JPG") := rfl
example : read_jpg_exif .noDate "a/b.png" = .ok (some "no exif data") := rfl
example : read_jpg_exif .openFail "clip.mp4" = .ok none := rfl
example : read_jpg_exif .noDate "photo.jpeg" = .ok none := rfl

/-- A gate miss returns ok none without consulting the file at all. -/
theorem read_jpg_exif_skip {filename : String} (ex : ExifOutcome)
    (h1 : ends_with (lowerList filename.toList) ".jpg".toList = false)
    (h2 : ends_with (lowerList filename.toList) ".png".toList = false) :
    read_jpg_exif ex filename = .ok none := by
  have hcond : (!(ends_with (lowerList filename.toList) ".jpg".toList) &&
      !(ends_with (lowerList filename.toList) ".png".toList)) = true := by
    rw [h1, h2]; rfl
  rw [read_jpg_exif.eq_def, if_pos hcond]

theorem ends_with_append (A S : List Char) : ends_with (A ++ S) S = true := by
  rw [ends_with]
  have hlen : (A ++ S).length - S.length = A.length := by simp
  rw [hlen, List.drop_left]
  simp

theorem extOf_decomp {n : List Char} {e : String} (h : extOf n = some e) :
    ∃ st, n = st ++ '.' :: e.toList := by
  rw [extOf] at h
  by_cases hdot : n = ['.'] ∨ n = ['.', '.']
  · rw [if_pos hdot] at h; exact absurd h (by simp)
  · rw [if_neg hdot] at h
    cases ha : afterLast '.' n with
    | none => simp only [ha] at h; exact absurd h (by simp)
    | some q =>
      simp only [ha] at h
      by_cases hq : q.1 = []
      · rw [if_pos hq] at h; exact absurd h (by simp)
      · rw [if_neg hq] at h
        obtain rfl := Option.some.inj h
        have hd := afterLast_sound (show afterLast '.' n = some (q.1, q.2) by
          rw [ha])
        exact ⟨q.1, hd⟩

theorem strExtension_decomp {p e : String} (h : strExtension p = some e) :
    ∃ t, p.toList = t ++ '.' :: e.toList := by
  obtain ⟨t0, ht0⟩ : ∃ t0, p.toList = t0 ++ fileNameOf p.toList := by
    rw [fileNameOf]
    cases hs : afterLast '/' p.toList with
    | some q =>
      refine ⟨q.1 ++ ['/'], ?_⟩
      have hd := afterLast_sound (show afterLast '/' p.toList = some (q.1, q.2) by
        rw [hs])
      rw [hd]
      simp
    | none => exact ⟨[], by simp⟩
  obtain ⟨st, hst⟩ := extOf_decomp h
  refine ⟨t0 ++ st, ?_⟩
  rw [ht0, hst]
  simp [List.append_assoc]

/-- If p has extension e, the lowercased p ends with a dot followed by
the lowercased e. -/
theorem ext_ends_with {p e : String} (hx : strExtension p = some e) :
    ends_with (lowerList p.toList) ('.' :: (lowerStr e).toList) = true := by
  obtain ⟨t, ht⟩ := strExtension_decomp hx
  have hlow : lowerList p.toList =
      lowerList t ++ ('.' :: (lowerStr e).toList) := by
    rw [ht]
    show List.map Char.toLower (t ++ '.' :: e.toList) =
      List.map Char.toLower t ++ ('.' :: List.map Char.toLower e.toList)
    rw [List.map_append, List.map_cons]
    rw [show Char.toLower '.' = '.' by decide]
  rw [hlow]
  exact ends_with_append _ _

/-- With a jpg or png extension the gate passes; an absent capture-date
field then yields the sentinel string. -/
theorem read_jpg_exif_no_date {p e : String}
    (hx : strExtension p = some e)
    (he : lowerStr e = "jpg" ∨ lowerStr e = "png") :
    read_jpg_exif .noDate p = .ok (some "no exif data") := by
  have h := ext_ends_with hx
  have hcond : (!(ends_with (lowerList p.toList) ".jpg".toList) &&
      !(ends_with (lowerList p.toList) ".png".toList)) = false := by
    rcases he with he | he <;> rw [he] at h
    · have hg : ends_with (lowerList p.toList) ".jpg".toList = true := h
      rw [hg]; rfl
    · have hg : ends_with (lowerList p.toList) ".png".toList = true := h
      rw [hg]
      simp
  have hneg : ¬((!ends_with (lowerList p.toList) ".jpg".toList &&
      !ends_with (lowerList p.toList) ".png".toList) = true) := by
    rw [hcond]; simp
  rw [read_jpg_exif.eq_def, if_neg hneg]

/-! ### The filesystem model and the copy engine

The destination filesystem is a record of regular files (path with
content) and directories.  copy_file (src/lib.rs) resolves the parent of
the destination, creates it recursively, then skips when the destination
exists, copies when the source can be read, and fails otherwise; creating
the directories precedes the existence check but only touches the dirs
component. -/

/-- Embedding of Path::parent: everything before the last slash, the
empty path when there is no slash. -/
def parentDir (p : String) : String :=
  match afterLast '/' p.toList with
  | some q => String.mk q.1
  | none => ""

/-- Split a character list on a separator. -/
def splitOnChar (sep : Char) : List Char → List (List Char)
  | [] => [[]]
  | c :: cs =>
    match splitOnChar sep cs with
    | [] => if c = sep then [[], []] else [[c]]
    | h :: t => if c = sep then [] :: h :: t else (c :: h) :: t

/-- Join character lists with a separator. -/
def joinWith (sep : Char) : List (List Char) → List Char
  | [] => []
  | [x] => x
  | x :: xs => x ++ sep :: joinWith sep xs

/-- The chain of directories fs::create_dir_all brings into existence
for a path: every component-wise prefix of the path. -/
def ancestorDirs (p : String) : List String :=
  if p = "" then []
  else
    (List.range (splitOnChar '/' p.toList).length).map fun i =>
      String.mk (joinWith '/' ((splitOnChar '/' p.toList).take (i + 1)))

example : ancestorDirs "2023/01/15" = ["2023", "2023/01", "2023/01/15"] := rfl
example : ancestorDirs "" = [] := rfl

/-- The destination filesystem state. -/
structure FS where
  files : List (String × String)
  dirs : List String
deriving DecidableEq

/-- Add one directory if it is not already present. -/
def insertDir (ds : List String) (d : String) : List String :=
  if d ∈ ds then ds else ds ++ [d]

/-- Embedding of create_dir (src/lib.rs), backed by fs::create_dir_all:
creates every missing ancestor, succeeds when all already exist. -/
def create_dir (fs : FS) (p : String) : FS :=
  { fs with dirs := (ancestorDirs p).foldl insertDir fs.dirs }

/-- Per-file result of the copy engine. -/
inductive CopyResult where
  | copied
  | skipped
  | failed
deriving DecidableEq

/-- Embedding of copy_file (src/lib.rs): create the destination's parent
directories, then return false when the destination exists, copy when the
source is readable, and fail otherwise.  create_dir runs first in the
source and affects only the dirs component. -/
def copy_file (fs : FS) (src dst : String) : FS × CopyResult :=
  if (fs.files.lookup dst).isSome then
    (create_dir fs (parentDir dst), .skipped)
  else
    match fs.files.lookup src with
    | some content =>
      ({ create_dir fs (parentDir dst) with files := (dst, content) :: fs.files },
        .copied)
    | none => (create_dir fs (parentDir dst), .failed)

/-- Embedding of the loop in copy_media_files (src/lib.rs): run copy_file
over every mapping entry, counting the successfully copied ones; errors
are logged and do not stop the loop. -/
def copyPass : List (String × String) → FS → FS × Nat
  | [], fs => (fs, 0)
  | (src, dst) :: rest, fs =>
    (((copyPass rest (copy_file fs src dst).1).1,
      (copyPass rest (copy_file fs src dst).1).2 +
        (if (copy_file fs src dst).2 = .copied then 1 else 0)))

example :
    copyPass [("s", "a/b.jpg")] (FS.mk [("s", "x")] []) =
      (FS.mk [("a/b.jpg", "x"), ("s", "x")] ["a"], 1) := rfl
example :
    copyPass [("s", "a/b.jpg")] (FS.mk [("a/b.jpg", "old"), ("s", "x")] []) =
      (FS.mk [("a/b.jpg", "old"), ("s", "x")] ["a"], 0) := rfl

/-! ### Copy-engine lemmas -/

theorem insertDir_mono {ds : List String} {d x : String} (h : d ∈ ds) :
    d ∈ insertDir ds x := by
  simp only [insertDir]
  by_cases hx : x ∈ ds
  · rw [if_pos hx]; exact h
  · rw [if_neg hx]; exact List.mem_append_left _ h

theorem foldl_insertDir_mono {l : List String} {ds : List String} {d : String}
    (h : d ∈ ds) : d ∈ l.foldl insertDir ds := by
  induction l generalizing ds with
  | nil => exact h
  | cons x xs ih => exact ih (insertDir_mono h)

theorem foldl_insertDir_mem {l : List String} {ds : List String} :
    ∀ d ∈ l, d ∈ l.foldl insertDir ds := by
  induction l generalizing ds with
  | nil => intro d hd; simp at hd
  | cons x xs ih =>
    intro d hd
    rw [List.foldl_cons]
    rcases List.mem_cons.mp hd with rfl | hd
    · apply foldl_insertDir_mono
      simp only [insertDir]
      by_cases hx : d ∈ ds
      · rw [if_pos hx]; exact hx
      · rw [if_neg hx]; exact List.mem_append_right _ (by simp)
    · exact ih d hd

theorem foldl_insertDir_noop {l : List String} {ds : List String}
    (h : ∀ x ∈ l, x ∈ ds) : l.foldl insertDir ds = ds := by
  induction l with
  | nil => rfl
  | cons x xs ih =>
    have hx : insertDir ds x = ds := by
      simp only [insertDir]
      rw [if_pos (h x (by simp))]
    show (x :: xs).foldl insertDir ds = ds
    rw [List.foldl_cons, hx]
    exact ih fun y hy => h y (by simp [hy])

theorem create_dir_dirs_mono {fs : FS} {p d : String} (h : d ∈ fs.dirs) :
    d ∈ (create_dir fs p).dirs :=
  foldl_insertDir_mono h

theorem create_dir_mem (fs : FS) (p : String) :
    ∀ d ∈ ancestorDirs p, d ∈ (create_dir fs p).dirs :=
  fun d hd => foldl_insertDir_mem d hd

theorem create_dir_noop {fs : FS} {p : String}
    (h : ∀ d ∈ ancestorDirs p, d ∈ fs.dirs) : create_dir fs p = fs := by
  simp only [create_dir]
  rw [foldl_insertDir_noop h]

theorem copy_file_files_mono {fs : FS} {src dst p c : String}
    (h : fs.files.lookup p = some c) :
    (copy_file fs src dst).1.files.lookup p = some c := by
  rw [copy_file]
  by_cases hc : (fs.files.lookup dst).isSome = true
  · rw [if_pos hc]; exact h
  · rw [if_neg hc]
    cases hl : fs.files.lookup src with
    | some content =>
      simp only [hl]
      by_cases hp : p = dst
      · subst hp
        exact absurd (by rw [h]; rfl) hc
      · have hbeq : (p == dst) = false := beq_eq_false_iff_ne.mpr hp
        show List.lookup p ((dst, content) :: fs.files) = some c
        simp only [List.lookup, hbeq]
        exact h
    | none => simp only [hl]; exact h

theorem copy_file_dirs_mono {fs : FS} {src dst d : String} (h : d ∈ fs.dirs) :
    d ∈ (copy_file fs src dst).1.dirs := by
  rw [copy_file]
  by_cases hc : (fs.files.lookup dst).isSome = true
  · rw [if_pos hc]; exact create_dir_dirs_mono h
  · rw [if_neg hc]
    cases hl : fs.files.lookup src with
    | some content => simp only [hl]; exact create_dir_dirs_mono h
    | none => simp only [hl]; exact create_dir_dirs_mono h

theorem copy_file_mkdirs (fs : FS) (src dst : String) :
    ∀ d ∈ ancestorDirs (parentDir dst), d ∈ (copy_file fs src dst).1.dirs := by
  intro d hd
  rw [copy_file]
  by_cases hc : (fs.files.lookup dst).isSome = true
  · rw [if_pos hc]; exact create_dir_mem fs _ d hd
  · rw [if_neg hc]
    cases hl : fs.files.lookup src with
    | some content => simp only [hl]; exact create_dir_mem fs _ d hd
    | none => simp only [hl]; exact create_dir_mem fs _ d hd

theorem copy_file_makes_target {fs : FS} {src dst : String}
    (h : (fs.files.lookup src).isSome = true) :
    ((copy_file fs src dst).1.files.lookup dst).isSome = true := by
  rw [copy_file]
  by_cases hc : (fs.files.lookup dst).isSome = true
  · rw [if_pos hc]; exact hc
  · rw [if_neg hc]
    cases hl : fs.files.lookup src with
    | some content =>
      simp only [hl]
      show (List.lookup dst ((dst, content) :: fs.files)).isSome = true
      simp [List.lookup]
    | none => rw [hl] at h; exact absurd h (by simp)

theorem copy_file_files_mono_isSome {fs : FS} {src dst p : String}
    (h : (fs.files.lookup p).isSome = true) :
    ((copy_file fs src dst).1.files.lookup p).isSome = true := by
  obtain ⟨c, hc⟩ := Option.isSome_iff_exists.mp h
  rw [copy_file_files_mono hc]
  rfl

theorem copyPass_fst_cons (src dst : String) (rest : List (String × String))
    (fs : FS) :
    (copyPass ((src, dst) :: rest) fs).1 =
      (copyPass rest (copy_file fs src dst).1).1 := rfl

theorem copyPass_files_mono {m : List (String × String)} {fs : FS}
    {p c : String} (h : fs.files.lookup p = some c) :
    (copyPass m fs).1.files.lookup p = some c := by
  induction m generalizing fs with
  | nil => exact h
  | cons e rest ih =>
    obtain ⟨src, dst⟩ := e
    rw [copyPass_fst_cons]
    exact ih (copy_file_files_mono h)

theorem copyPass_dirs_mono {m : List (String × String)} {fs : FS} {d : String}
    (h : d ∈ fs.dirs) : d ∈ (copyPass m fs).1.dirs := by
  induction m generalizing fs with
  | nil => exact h
  | cons e rest ih =>
    obtain ⟨src, dst⟩ := e
    rw [copyPass_fst_cons]
    exact ih (copy_file_dirs_mono h)

theorem copyPass_files_mono_isSome {m : List (String × String)} {fs : FS}
    {p : String} (h : (fs.files.lookup p).isSome = true) :
    ((copyPass m fs).1.files.lookup p).isSome = true := by
  obtain ⟨c, hc⟩ := Option.isSome_iff_exists.mp h
  rw [copyPass_files_mono hc]
  rfl

/-- After one full pass in which every source was readable, every
destination of the mapping exists as a file and its parent chain exists
as directories. -/
theorem copyPass_targets_exist {m : List (String × String)} {fs : FS}
    (hsrc : ∀ e ∈ m, (fs.files.lookup e.1).isSome = true) :
    ∀ e ∈ m, ((copyPass m fs).1.files.lookup e.2).isSome = true ∧
      ∀ d ∈ ancestorDirs (parentDir e.2), d ∈ (copyPass m fs).1.dirs := by
  induction m generalizing fs with
  | nil => intro e he; simp at he
  | cons hd rest ih =>
    obtain ⟨src, dst⟩ := hd
    intro e he
    rcases List.mem_cons.mp he with rfl | he
    · constructor
      · rw [copyPass_fst_cons]
        exact copyPass_files_mono_isSome
          (copy_file_makes_target (hsrc (src, dst) (List.mem_cons_self _ _)))
      · intro d hd
        rw [copyPass_fst_cons]
        exact copyPass_dirs_mono (copy_file_mkdirs fs src dst d hd)
    · rw [copyPass_fst_cons]
      refine ih ?_ e he
      intro e' he'
      exact copy_file_files_mono_isSome (hsrc e' (List.mem_cons_of_mem _ he'))

/-- When target and parent directories already exist, copy_file is a
skip that leaves the state untouched. -/
theorem copy_file_skip_noop {fs : FS} {src dst : String}
    (hdst : (fs.files.lookup dst).isSome = true)
    (hdirs : ∀ d ∈ ancestorDirs (parentDir dst), d ∈ fs.dirs) :
    copy_file fs src dst = (fs, .skipped) := by
  rw [copy_file, if_pos hdst, create_dir_noop hdirs]

/-- A pass over entries whose targets and parent directories all exist
changes nothing and copies nothing. -/
theorem copyPass_all_skip {m : List (String × String)} {fs : FS}
    (h : ∀ e ∈ m, (fs.files.lookup e.2).isSome = true ∧
      ∀ d ∈ ancestorDirs (parentDir e.2), d ∈ fs.dirs) :
    copyPass m fs = (fs, 0) := by
  induction m with
  | nil => rfl
  | cons hd rest ih =>
    obtain ⟨src, dst⟩ := hd
    have hskip : copy_file fs src dst = (fs, .skipped) :=
      copy_file_skip_noop (h (src, dst) (List.mem_cons_self _ _)).1
        (h (src, dst) (List.mem_cons_self _ _)).2
    show ((copyPass rest (copy_file fs src dst).1).1,
      (copyPass rest (copy_file fs src dst).1).2 +
        (if (copy_file fs src dst).2 = .copied then 1 else 0)) = (fs, 0)
    rw [hskip]
    have hrest : copyPass rest fs = (fs, 0) :=
      ih fun e he => h e (List.mem_cons_of_mem _ he)
    simp [hrest]

/-- C9: when the destination file of a mapping entry already exists, the
copy pass skips it without error: nothing is written, so the destination
keeps its contents whatever the source holds, the entry adds nothing to
the copied tally, and the remaining entries are processed as before. -/
theorem copy_skips_existing_destination {fs : FS} {src dst content : String}
    (h : fs.files.lookup dst = some content) (rest : List (String × String)) :
    (copy_file fs src dst).2 = .skipped ∧
    (copy_file fs src dst).1.files = fs.files ∧
    (copy_file fs src dst).1.files.lookup dst = some content ∧
    copyPass ((src, dst) :: rest) fs = copyPass rest (copy_file fs src dst).1 := by
  have hc : (fs.files.lookup dst).isSome = true := by rw [h]; rfl
  have h1 : copy_file fs src dst = (create_dir fs (parentDir dst), .skipped) := by
    rw [copy_file, if_pos hc]
  refine ⟨by rw [h1], by rw [h1]; rfl, ?_, ?_⟩
  · rw [h1]; exact h
  · show ((copyPass rest (copy_file fs src dst).1).1,
      (copyPass rest (copy_file fs src dst).1).2 +
        (if (copy_file fs src dst).2 = .copied then 1 else 0)) = _
    rw [h1]
    simp

/-- Witness for C9: an existing destination with different content is
skipped and keeps its old content. -/
theorem copy_skips_existing_destination_w :
    (copy_file (FS.mk [("d.jpg", "old"), ("s.jpg", "new")] []) "s.jpg" "d.jpg").2 =
      .skipped ∧
    (copy_file (FS.mk [("d.jpg", "old"), ("s.jpg", "new")] []) "s.jpg" "d.jpg").1.files =
      [("d.jpg", "old"), ("s.jpg", "new")] ∧
    (copy_file (FS.mk [("d.jpg", "old"), ("s.jpg", "new")] [])
        "s.jpg" "d.jpg").1.files.lookup "d.jpg" = some "old" ∧
    copyPass [("s.jpg", "d.jpg")] (FS.mk [("d.jpg", "old"), ("s.jpg", "new")] []) =
      copyPass []
        (copy_file (FS.mk [("d.jpg", "old"), ("s.jpg", "new")] []) "s.jpg" "d.jpg").1 :=
  copy_skips_existing_destination (by rfl) []

/-- C10: a failing copy is caught and isolated: the entry writes nothing
and counts as not copied, and the remaining entries of the mapping are
processed exactly as they would have been. -/
theorem copy_failure_isolated {fs : FS} {src dst : String}
    (rest : List (String × String))
    (h : (copy_file fs src dst).2 = .failed) :
    (copy_file fs src dst).1.files = fs.files ∧
    copyPass ((src, dst) :: rest) fs = copyPass rest (copy_file fs src dst).1 := by
  have h1 : copy_file fs src dst = (create_dir fs (parentDir dst), .failed) := by
    rw [copy_file] at h ⊢
    by_cases hc : (fs.files.lookup dst).isSome = true
    · rw [if_pos hc] at h; simp at h
    · rw [if_neg hc] at h ⊢
      cases hl : fs.files.lookup src with
      | some content => simp only [hl] at h; simp at h
      | none => simp only [hl]
  refine ⟨by rw [h1]; rfl, ?_⟩
  show ((copyPass rest (copy_file fs src dst).1).1,
    (copyPass rest (copy_file fs src dst).1).2 +
      (if (copy_file fs src dst).2 = .copied then 1 else 0)) = _
  rw [h1]
  simp

/-- Witness for C10: a copy whose source cannot be read fails, writes
nothing, and the next entry is still processed. -/
theorem copy_failure_isolated_w :
    (copy_file (FS.mk [] []) "missing.jpg" "a/b.jpg").1.files = [] ∧
    copyPass [("missing.jpg", "a/b.jpg"), ("x", "y")] (FS.mk [] []) =
      copyPass [("x", "y")] (copy_file (FS.mk [] []) "missing.jpg" "a/b.jpg").1 :=
  copy_failure_isolated [("x", "y")] rfl

/-- C5: running the copy pass again over the same mapping, after a first
pass in which every source file was readable, changes nothing: the
destination tree is the one the first pass produced and zero files are
newly copied (every entry is skipped as already existing).  The second
pass may visit the entries in any order. -/
theorem organize_idempotent {m m' : List (String × String)} {fs : FS}
    (hsrc : ∀ e ∈ m, (fs.files.lookup e.1).isSome = true)
    (hagain : ∀ e ∈ m', e ∈ m) :
    copyPass m' (copyPass m fs).1 = ((copyPass m fs).1, 0) := by
  apply copyPass_all_skip
  intro e he
  exact copyPass_targets_exist hsrc e (hagain e he)

/-- Witness for C5 at a concrete mapping and source tree. -/
theorem organize_idempotent_w :
    copyPass [("src/IMG_20230115_102911.jpg", "2023/01/15/IMG_20230115_102911.jpg")]
      (copyPass [("src/IMG_20230115_102911.jpg", "2023/01/15/IMG_20230115_102911.jpg")]
        (FS.mk [("src/IMG_20230115_102911.jpg", "bytes")] [])).1 =
    ((copyPass [("src/IMG_20230115_102911.jpg", "2023/01/15/IMG_20230115_102911.jpg")]
        (FS.mk [("src/IMG_20230115_102911.jpg", "bytes")] [])).1, 0) :=
  organize_idempotent (by decide) (fun e he => he)

/-! ### The directory walker find_all_media_files

A source directory tree is a list of entries; a file entry carries what
its on-disk bytes would yield to the metadata reader.  The walker visits
entries in order, recurses into subdirectories (the recursive flag is
always true on the paths reachable from copy_media_files), classifies
files, resolves their dates with the two strategies in order, and inserts
absoluteSourcePath to destFragment into the accumulated mapping.  Panics
and directory read errors abort the walk, modelled by Except. -/

/-- One directory entry of the source tree. -/
inductive Entry where
  | file (name : String) (ex : ExifOutcome)
  | dir (name : String) (sub : List Entry)

/-- Path::join for a relative component. -/
def joinPath (base name : String) : String := base ++ "/" ++ name

/-- HashMap::insert on an association list keyed by the first component:
replaces the entry with an equal key, appends a fresh key at the end. -/
def insertMap : List (String × String) → String → String → List (String × String)
  | [], k, v => [(k, v)]
  | (k1, v1) :: rest, k, v =>
    if k1 = k then (k, v) :: rest else (k1, v1) :: insertMap rest k v

/-- Embedding of find_all_media_files (src/lib.rs), walking a directory
listing with the accumulated mapping threaded through. -/
def findAllList (base : String) : List Entry → List (String × String) →
    Except String (List (String × String))
  | [], m => .ok m
  | .dir name sub :: rest, m =>
    match findAllList (joinPath base name) sub m with
    | .error e => .error e
    | .ok m1 => findAllList base rest m1
  | .file name ex :: rest, m =>
    match is_media_file (pathExt (joinPath base name)) with
    | .error e => .error e
    | .ok false => findAllList base rest m
    | .ok true =>
      match smartphone_file (joinPath base name) with
      | some tp => findAllList base rest (insertMap m (joinPath base name) tp)
      | none =>
        match read_jpg_exif ex (joinPath base name) with
        | .error e => .error e
        | .ok (some tp) => findAllList base rest (insertMap m (joinPath base name) tp)
        | .ok none => findAllList base rest m
  termination_by es _ => sizeOf es

/-- Embedding of the MediaConfig struct: a source root, a target root
and the source-to-destination mapping. -/
structure MediaConfig where
  source : String
  target : String
  files : List (String × String)

/-- Embedding of MediaConfig::copy_media_files (src/lib.rs): discover,
then copy every mapping entry, reporting the copied and total counts. -/
def copy_media_files (cfg : MediaConfig) (tree : List Entry) (fs : FS) :
    Except String (FS × Nat × Nat) :=
  match findAllList cfg.source tree cfg.files with
  | .error e => .error e
  | .ok files => .ok ((copyPass files fs).1, (copyPass files fs).2, files.length)

example :
    findAllList "d" [.file "IMG_20210130_000001.jpg" .noDate,
      .file "VID_20210130_000003.mp4" .noDate, .file "notes.txt" .noDate] [] =
      .ok [("d/IMG_20210130_000001.jpg", "2021/01/30/IMG_20210130_000001.jpg"),
           ("d/VID_20210130_000003.mp4", "2021/01/30/VID_20210130_000003.mp4")] := by
  have j1 : joinPath "d" "IMG_20210130_000001.jpg" = "d/IMG_20210130_000001.jpg" := rfl
  have j2 : joinPath "d" "VID_20210130_000003.mp4" = "d/VID_20210130_000003.mp4" := rfl
  have j3 : joinPath "d" "notes.txt" = "d/notes.txt" := rfl
  have c1 : is_media_file (pathExt "d/IMG_20210130_000001.jpg") = .ok true := rfl
  have c2 : is_media_file (pathExt "d/VID_20210130_000003.mp4") = .ok true := rfl
  have c3 : is_media_file (pathExt "d/notes.txt") = .ok false := rfl
  have s1 : smartphone_file "d/IMG_20210130_000001.jpg" =
      some "2021/01/30/IMG_20210130_000001.jpg" := rfl
  have s2 : smartphone_file "d/VID_20210130_000003.mp4" =
      some "2021/01/30/VID_20210130_000003.mp4" := rfl
  have i1 : insertMap [] "d/IMG_20210130_000001.jpg"
      "2021/01/30/IMG_20210130_000001.jpg" =
      [("d/IMG_20210130_000001.jpg", "2021/01/30/IMG_20210130_000001.jpg")] := rfl
  have i2 : insertMap [("d/IMG_20210130_000001.jpg", "2021/01/30/IMG_20210130_000001.jpg")]
      "d/VID_20210130_000003.mp4" "2021/01/30/VID_20210130_000003.mp4" =
      [("d/IMG_20210130_000001.jpg", "2021/01/30/IMG_20210130_000001.jpg"),
       ("d/VID_20210130_000003.mp4", "2021/01/30/VID_20210130_000003.mp4")] := rfl
  simp only [findAllList, j1, j2, j3, c1, c2, c3, s1, s2, i1, i2]

/-- C1 (evaluation at the failing input): copy_media_files hands the raw
destination fragment to copy_file; the configured target root stays
unused and is not a prefix of the path actually written. -/
theorem copy_media_files_ignores_target_root :
    copy_media_files
        (MediaConfig.mk "photos" "/home/user/Pictures" [])
        [.file "IMG_20230115_102911.jpg" .noDate]
        (FS.mk [("photos/IMG_20230115_102911.jpg", "bytes")] []) =
      .ok (FS.mk
        [("2023/01/15/IMG_20230115_102911.jpg", "bytes"),
         ("photos/IMG_20230115_102911.jpg", "bytes")]
        ["2023", "2023/01", "2023/01/15"], 1, 1) ∧
    "/home/user/Pictures".toList.isPrefixOf
        "2023/01/15/IMG_20230115_102911.jpg".toList = false := by
  constructor
  · have j : joinPath "photos" "IMG_20230115_102911.jpg" =
        "photos/IMG_20230115_102911.jpg" := rfl
    have c : is_media_file (pathExt "photos/IMG_20230115_102911.jpg") = .ok true := rfl
    have s : smartphone_file "photos/IMG_20230115_102911.jpg" =
        some "2023/01/15/IMG_20230115_102911.jpg" := rfl
    have i : insertMap [] "photos/IMG_20230115_102911.jpg"
        "2023/01/15/IMG_20230115_102911.jpg" =
        [("photos/IMG_20230115_102911.jpg", "2023/01/15/IMG_20230115_102911.jpg")] := rfl
    simp only [copy_media_files, findAllList, j, c, s, i]
    rfl
  · decide

/-- C3 (counterexample): two distinct source paths, the same filename in
two different subdirectories, map to the same destination fragment, so
two copy operations target the same destination path. -/
theorem discovery_same_fragment_counterexample :
    findAllList "root"
        [.dir "a" [.file "IMG_20230115_102911.jpg" .noDate],
         .dir "b" [.file "IMG_20230115_102911.jpg" .noDate]] [] =
      .ok [("root/a/IMG_20230115_102911.jpg", "2023/01/15/IMG_20230115_102911.jpg"),
           ("root/b/IMG_20230115_102911.jpg", "2023/01/15/IMG_20230115_102911.jpg")] ∧
    "root/a/IMG_20230115_102911.jpg" ≠ "root/b/IMG_20230115_102911.jpg" := by
  constructor
  · have ja : joinPath "root" "a" = "root/a" := rfl
    have jb : joinPath "root" "b" = "root/b" := rfl
    have j1 : joinPath "root/a" "IMG_20230115_102911.jpg" =
        "root/a/IMG_20230115_102911.jpg" := rfl
    have j2 : joinPath "root/b" "IMG_20230115_102911.jpg" =
        "root/b/IMG_20230115_102911.jpg" := rfl
    have c1 : is_media_file (pathExt "root/a/IMG_20230115_102911.jpg") = .ok true := rfl
    have c2 : is_media_file (pathExt "root/b/IMG_20230115_102911.jpg") = .ok true := rfl
    have s1 : smartphone_file "root/a/IMG_20230115_102911.jpg" =
        some "2023/01/15/IMG_20230115_102911.jpg" := rfl
    have s2 : smartphone_file "root/b/IMG_20230115_102911.jpg" =
        some "2023/01/15/IMG_20230115_102911.jpg" := rfl
    have i1 : insertMap [] "root/a/IMG_20230115_102911.jpg"
        "2023/01/15/IMG_20230115_102911.jpg" =
        [("root/a/IMG_20230115_102911.jpg", "2023/01/15/IMG_20230115_102911.jpg")] := rfl
    have i2 : insertMap
        [("root/a/IMG_20230115_102911.jpg", "2023/01/15/IMG_20230115_102911.jpg")]
        "root/b/IMG_20230115_102911.jpg" "2023/01/15/IMG_20230115_102911.jpg" =
        [("root/a/IMG_20230115_102911.jpg", "2023/01/15/IMG_20230115_102911.jpg"),
         ("root/b/IMG_20230115_102911.jpg", "2023/01/15/IMG_20230115_102911.jpg")] := rfl
    simp only [findAllList, ja, jb, j1, j2, c1, c2, s1, s2, i1, i2]
  · decide

theorem insertMap_keys_subset {m : List (String × String)} {k v x : String}
    (h : x ∈ (insertMap m k v).map Prod.fst) : x ∈ m.map Prod.fst ∨ x = k := by
  induction m with
  | nil =>
    rw [insertMap] at h
    simp at h
    exact Or.inr h
  | cons p rest ih =>
    obtain ⟨k1, v1⟩ := p
    rw [insertMap] at h
    by_cases hk : k1 = k
    · rw [if_pos hk] at h
      simp only [List.map_cons, List.mem_cons] at h ⊢
      rcases h with rfl | h
      · exact Or.inr rfl
      · exact Or.inl (Or.inr h)
    · rw [if_neg hk] at h
      simp only [List.map_cons, List.mem_cons] at h ⊢
      rcases h with rfl | h
      · exact Or.inl (Or.inl rfl)
      · rcases ih h with h2 | h2
        · exact Or.inl (Or.inr h2)
        · exact Or.inr h2

theorem insertMap_keys_nodup {m : List (String × String)} {k v : String}
    (h : (m.map Prod.fst).Nodup) : ((insertMap m k v).map Prod.fst).Nodup := by
  induction m with
  | nil => simp [insertMap]
  | cons p rest ih =>
    obtain ⟨k1, v1⟩ := p
    rw [insertMap]
    simp only [List.map_cons, List.nodup_cons] at h
    obtain ⟨hnotin, hrest⟩ := h
    by_cases hk : k1 = k
    · rw [if_pos hk]
      subst hk
      simp only [List.map_cons, List.nodup_cons]
      exact ⟨hnotin, hrest⟩
    · rw [if_neg hk]
      simp only [List.map_cons, List.nodup_cons]
      refine ⟨?_, ih hrest⟩
      intro hx
      rcases insertMap_keys_subset hx with h2 | h2
      · exact hnotin h2
      · exact hk h2

/-- C3 (amended): discovery keeps the mapping keyed by absolute source
path: starting from a mapping with pairwise-distinct keys (such as the
empty one), the produced mapping has pairwise-distinct keys, so no source
path owns two entries.  Destination fragments, however, may repeat across
distinct keys, as the companion counterexample shows, so two copy
operations can still target the same destination path. -/
theorem discovery_keys_distinct (base : String) (es : List Entry)
    (m : List (String × String)) :
    ∀ m', findAllList base es m = .ok m' →
      (m.map Prod.fst).Nodup → (m'.map Prod.fst).Nodup := by
  induction base, es, m using findAllList.induct with
  | case1 base m =>
    intro m' h hnd
    simp only [findAllList] at h
    obtain rfl : m = m' := by simpa using h
    exact hnd
  | case2 base name sub rest m e hsub ihsub =>
    intro m' h hnd
    simp only [findAllList, hsub] at h
    exact Except.noConfusion h
  | case3 base name sub rest m m1 hsub ihsub ihrest =>
    intro m' h hnd
    simp only [findAllList, hsub] at h
    exact ihrest m' h (ihsub m1 hsub hnd)
  | case4 base name ex rest m e hmedia =>
    intro m' h hnd
    simp only [findAllList, hmedia] at h
    exact Except.noConfusion h
  | case5 base name ex rest m hmedia ihrest =>
    intro m' h hnd
    simp only [findAllList, hmedia] at h
    exact ihrest m' h hnd
  | case6 base name ex rest m hmedia content hsm ihrest =>
    intro m' h hnd
    simp only [findAllList, hmedia, hsm] at h
    exact ihrest m' h (insertMap_keys_nodup hnd)
  | case7 base name ex rest m hmedia hsm e hexif =>
    intro m' h hnd
    simp only [findAllList, hmedia, hsm, hexif] at h
    exact Except.noConfusion h
  | case8 base name ex rest m hmedia hsm tp hexif ihrest =>
    intro m' h hnd
    simp only [findAllList, hmedia, hsm, hexif] at h
    exact ihrest m' h (insertMap_keys_nodup hnd)
  | case9 base name ex rest m hmedia hsm hexif ihrest =>
    intro m' h hnd
    simp only [findAllList, hmedia, hsm, hexif] at h
    exact ihrest m' h hnd

/-- Witness for the amended C3 theorem at a concrete tree. -/
theorem discovery_keys_distinct_w :
    (([("photos/IMG_20230115_102911.jpg",
        "2023/01/15/IMG_20230115_102911.jpg")].map Prod.fst).Nodup) := by
  have hrun : findAllList "photos" [.file "IMG_20230115_102911.jpg" .noDate] [] =
      .ok [("photos/IMG_20230115_102911.jpg",
        "2023/01/15/IMG_20230115_102911.jpg")] := by
    have j : joinPath "photos" "IMG_20230115_102911.jpg" =
        "photos/IMG_20230115_102911.jpg" := rfl
    have c : is_media_file (pathExt "photos/IMG_20230115_102911.jpg") = .ok true := rfl
    have s : smartphone_file "photos/IMG_20230115_102911.jpg" =
        some "2023/01/15/IMG_20230115_102911.jpg" := rfl
    have i : insertMap [] "photos/IMG_20230115_102911.jpg"
        "2023/01/15/IMG_20230115_102911.jpg" =
        [("photos/IMG_20230115_102911.jpg", "2023/01/15/IMG_20230115_102911.jpg")] := rfl
    simp only [findAllList, j, c, s, i]
  exact discovery_keys_distinct "photos" [.file "IMG_20230115_102911.jpg" .noDate]
    [] _ hrun (by simp)

/-- C4: for a file whose extension, compared case-insensitively, is jpg
or png, a metadata container that parses but holds no original-capture
date makes read_jpg_exif return the literal sentinel "no exif data"; the
walker then records that sentinel as the file's destination fragment in
the mapping. -/
theorem no_exif_data_sentinel :
    (∀ (p e : String), strExtension p = some e →
      (lowerStr e = "jpg" ∨ lowerStr e = "png") →
      read_jpg_exif .noDate p = .ok (some "no exif data")) ∧
    (∀ (base name e : String) (rest : List Entry) (m : List (String × String)),
      strExtension (joinPath base name) = some e →
      (lowerStr e = "jpg" ∨ lowerStr e = "png") →
      smartphone_file (joinPath base name) = none →
      findAllList base (.file name .noDate :: rest) m =
        findAllList base rest
          (insertMap m (joinPath base name) "no exif data")) := by
  refine ⟨fun p e hx he => read_jpg_exif_no_date hx he, ?_⟩
  intro base name e rest m hx he hsm
  have hm : is_media_file (pathExt (joinPath base name)) = .ok true := by
    rw [pathExt, hx]
    show is_media_file (some (.utf8 e)) = .ok true
    have hd : (decide (lowerStr e = "jpg" ∨ lowerStr e = "jpeg" ∨
        lowerStr e = "mp4" ∨ lowerStr e = "png")) = true := by
      apply decide_eq_true
      rcases he with he | he
      · exact Or.inl he
      · exact Or.inr (Or.inr (Or.inr he))
    simp only [is_media_file, OsStr.toStr]
    rw [hd]
  have hre : read_jpg_exif .noDate (joinPath base name) =
      .ok (some "no exif data") := read_jpg_exif_no_date hx he
  simp only [findAllList, hm, hsm, hre]

/-- Witness for C4 at a concrete file with no capture date. -/
theorem no_exif_data_sentinel_w :
    read_jpg_exif .noDate "photos/pic.jpg" = .ok (some "no exif data") ∧
    findAllList "photos" [.file "pic.jpg" .noDate] [] =
      findAllList "photos" [] (insertMap [] "photos/pic.jpg" "no exif data") :=
  ⟨no_exif_data_sentinel.1 "photos/pic.jpg" "jpg" rfl (Or.inl rfl),
   no_exif_data_sentinel.2 "photos" "pic.jpg" "jpg" [] [] rfl (Or.inl rfl) rfl⟩

/-- C8: a filename that does not end, case-insensitively, in .jpg or
.png makes read_jpg_exif return no result whatever the file would have
yielded, so the file is never opened; a media file with such an extension
that also fails the filename pattern is dropped from the mapping without
any error. -/
theorem non_jpg_png_silently_excluded :
    (∀ (ex : ExifOutcome) (fn : String),
      ends_with (lowerList fn.toList) ".jpg".toList = false →
      ends_with (lowerList fn.toList) ".png".toList = false →
      read_jpg_exif ex fn = .ok none) ∧
    (∀ (base name : String) (ex : ExifOutcome) (rest : List Entry)
        (m : List (String × String)),
      ends_with (lowerList (joinPath base name).toList) ".jpg".toList = false →
      ends_with (lowerList (joinPath base name).toList) ".png".toList = false →
      smartphone_file (joinPath base name) = none →
      findAllList base (.file name ex :: rest) m = findAllList base rest m) := by
  refine ⟨fun ex fn h1 h2 => read_jpg_exif_skip ex h1 h2, ?_⟩
  intro base name ex rest m h1 h2 hsm
  have hre : read_jpg_exif ex (joinPath base name) = .ok none :=
    read_jpg_exif_skip ex h1 h2
  cases hx : strExtension (joinPath base name) with
  | none =>
    have hm : is_media_file (pathExt (joinPath base name)) = .ok false := by
      rw [pathExt, hx]; rfl
    simp only [findAllList, hm]
  | some s =>
    have hm : is_media_file (pathExt (joinPath base name)) =
        .ok (decide (lowerStr s = "jpg" ∨ lowerStr s = "jpeg" ∨
          lowerStr s = "mp4" ∨ lowerStr s = "png")) := by
      rw [pathExt, hx]; rfl
    cases hb : (decide (lowerStr s = "jpg" ∨ lowerStr s = "jpeg" ∨
        lowerStr s = "mp4" ∨ lowerStr s = "png")) with
    | false =>
      rw [hb] at hm
      simp only [findAllList, hm]
    | true =>
      rw [hb] at hm
      simp only [findAllList, hm, hsm, hre]

/-- Witness for C8: an mp4 clip with an unopenable file is excluded
without error. -/
theorem non_jpg_png_silently_excluded_w :
    read_jpg_exif .openFail "b/clip.mp4" = .ok none ∧
    findAllList "b" [.file "clip.mp4" .openFail] [] = findAllList "b" [] [] :=
  ⟨non_jpg_png_silently_excluded.1 .openFail "b/clip.mp4" rfl rfl,
   non_jpg_png_silently_excluded.2 "b" "clip.mp4" .openFail [] [] rfl rfl rfl⟩

end Picsort
